import Mathlib

/-!
# EEPROM driver of the GPS logger (`eeprom.c`)

The driver talks to the NVM controller of the microcontroller through
memory-mapped registers.  Every C statement of the driver that touches the
controller is one `Action`; a driver function is embedded as the sequence of
actions it performs (its register-write trace), and the controller is a state
`NVM_t` on which a trace is run action by action.

The header `eeprom.h` and the device header are not part of the source tree, so
the constants and the controller's reaction to the registers are modelled from
the specification; each such definition says so.
-/

namespace EEP

/-! ## Constants from the headers -/

/-- Modelled from the spec: the constant EEPROM_PAGE_SIZE, which comes from a
header that is not part of the source tree.  The spec and the comment above
`EEP_LoadPageBuffer` both give the page size as 32 bytes. -/
def EEPROM_PAGE_SIZE : Nat := 32

/-- Modelled from the spec: the mask of the busy bit in the status register
(device header, missing from the source tree); the busy flag is a single
status bit. -/
def NVM_NVMBUSY_bm : Nat := 0x80

/-- Modelled from the spec: the load-page-buffer opcode (device header, missing
from the source tree). -/
def NVM_CMD_LOAD_EEPROM_BUFFER_gc : Nat := 0x33

/-- Modelled from the spec: the atomic erase-and-write-page opcode (device
header, missing from the source tree). -/
def NVM_CMD_ERASE_WRITE_EEPROM_PAGE_gc : Nat := 0x35

/-- Modelled from the spec: the erase-all opcode (device header, missing from
the source tree). -/
def NVM_CMD_ERASE_EEPROM_gc : Nat := 0x30

/-! ## Hardware actions and traces -/

/-- The writable registers of the NVM controller that the driver uses. -/
inductive Reg where
  | CMD
  | ADDR0
  | ADDR1
  | ADDR2
  | DATA0
  deriving DecidableEq, Repr

/-- One hardware action of the driver: a call of `EEP_WaitForNVM`, an
assignment to a controller register, or the execute trigger `NVM_EXEC()`. -/
inductive Action where
  | wait
  | write (r : Reg) (v : Nat)
  | exec
  deriving DecidableEq, Repr

/-- The sequence of hardware actions of a run, oldest first. -/
abbrev Trace := List Action

/-! ## The driver -/

/-- The loop of `EEP_LoadPageBuffer`:
`for (uint8_t i = 0; i < size; ++i) { NVM.ADDR0 = i; NVM.DATA0 = *data++; }`.
The counter is 8 bits wide, so `++i` is taken modulo 256.  The pointer `data`
is the list of bytes that can still be read through it; `*data++` reads the
head and advances to the tail, and a read past the end of the caller's buffer
is an error (`none`). -/
def loadLoop (size : Nat) : Nat → List Nat → Option Trace
  | i, [] => if i < size then none else some []
  | i, b :: rest =>
    if i < size then
      match loadLoop size ((i + 1) % 256) rest with
      | none => none
      | some t => some (.write .ADDR0 i :: .write .DATA0 b :: t)
    else some []

/-- Embedding of `EEP_LoadPageBuffer(const uint8_t *data, uint8_t size)`. -/
def EEP_LoadPageBuffer (data : List Nat) (size : Nat) : Option Trace :=
  let size := if size > EEPROM_PAGE_SIZE then EEPROM_PAGE_SIZE else size
  match loadLoop size 0 data with
  | none => none
  | some t =>
    some (.wait ::
      .write .CMD NVM_CMD_LOAD_EEPROM_BUFFER_gc ::
      .write .ADDR1 0x00 ::
      .write .ADDR2 0x00 :: t)

/-- Embedding of `EEP_AtomicWritePage(uint8_t page_addr)`.  The product is
computed in `int` and cast to `uint16_t`, hence the reduction modulo 2^16. -/
def EEP_AtomicWritePage (page_addr : Nat) : Trace :=
  let address := (page_addr * EEPROM_PAGE_SIZE) % 65536
  [ .wait,
    .write .ADDR0 (address &&& 0xFF),
    .write .ADDR1 ((address >>> 8) &&& 0x1F),
    .write .ADDR2 0x00,
    .write .CMD NVM_CMD_ERASE_WRITE_EEPROM_PAGE_gc,
    .exec,
    .wait ]

/-- The local array `blank` of `EEP_EraseAll`: 32 bytes, each 0xFF. -/
def blank : List Nat :=
  [0xFF, 0xFF, 0xFF, 0xFF, 0xFF, 0xFF, 0xFF, 0xFF, 0xFF, 0xFF, 0xFF, 0xFF, 0xFF, 0xFF, 0xFF, 0xFF,
   0xFF, 0xFF, 0xFF, 0xFF, 0xFF, 0xFF, 0xFF, 0xFF, 0xFF, 0xFF, 0xFF, 0xFF, 0xFF, 0xFF, 0xFF, 0xFF]

/-- Embedding of `EEP_EraseAll(void)`. -/
def EEP_EraseAll : Option Trace :=
  match EEP_LoadPageBuffer blank 32 with
  | none => none
  | some t =>
    some (t ++ [.wait, .write .CMD NVM_CMD_ERASE_EEPROM_gc, .exec])

/-! ## The controller -/

/-- State of the NVM controller and of the EEPROM behind it.  `busy` counts the
status polls for which the busy flag will still read as set (the flag is set
exactly when `busy` is not zero); `opPolls` is the duration of an erase or
write; `buffer` is the page buffer, `none` at a position that is not marked as
loaded; `eeprom` is the content of the memory, byte by byte. -/
structure NVM_t where
  busy : Nat
  opPolls : Nat
  CMD : Nat
  ADDR0 : Nat
  ADDR1 : Nat
  ADDR2 : Nat
  DATA0 : Nat
  buffer : Nat → Option Nat
  eeprom : Nat → Nat

/-- Modelled from the spec: the status register as the driver reads it; only
the busy bit is modelled. -/
def NVM_t.STATUS (s : NVM_t) : Nat :=
  if s.busy = 0 then 0 else NVM_NVMBUSY_bm

/-- Modelled from the spec: the progress the hardware makes during one status
poll; the busy flag is lowered by the hardware alone. -/
def NVM_t.poll (s : NVM_t) : NVM_t :=
  { s with busy := s.busy - 1 }

set_option linter.unusedVariables false in
/-- Embedding of `EEP_WaitForNVM`:
`while ((NVM.STATUS & NVM_NVMBUSY_bm) == NVM_NVMBUSY_bm) ;`.
Every turn of the loop is one status poll. -/
def EEP_WaitForNVM (s : NVM_t) : NVM_t :=
  if h : (s.STATUS &&& NVM_NVMBUSY_bm) = NVM_NVMBUSY_bm then
    EEP_WaitForNVM s.poll
  else s
termination_by s.busy
decreasing_by
  have hb : s.busy ≠ 0 := by
    intro h0
    simp [NVM_t.STATUS, h0, NVM_NVMBUSY_bm] at h
  simp only [NVM_t.poll]
  omega

/-- Modelled from the spec: the effect of an assignment to a controller
register.  Registers are 8 bits wide.  A write to the data register while the
load-page-buffer command is selected latches the byte into the page buffer at
the position given by the low address bits and marks that position. -/
def NVM_t.writeReg (s : NVM_t) (r : Reg) (v : Nat) : NVM_t :=
  match r with
  | .CMD => { s with CMD := v % 256 }
  | .ADDR0 => { s with ADDR0 := v % 256 }
  | .ADDR1 => { s with ADDR1 := v % 256 }
  | .ADDR2 => { s with ADDR2 := v % 256 }
  | .DATA0 =>
    if s.CMD = NVM_CMD_LOAD_EEPROM_BUFFER_gc then
      { s with
        DATA0 := v % 256
        buffer := fun k => if k = s.ADDR0 % EEPROM_PAGE_SIZE then some (v % 256) else s.buffer k }
    else { s with DATA0 := v % 256 }

/-- Modelled from the spec: the execute trigger `NVM_EXEC()` (a macro of the
missing header).  It commits the selected command and raises the busy flag.
An atomic page write stores the marked page-buffer positions into the addressed
page and leaves the other bytes of the page alone; erase-all erases, in every
page, the positions that are marked in the page buffer.  Either command
flushes the page buffer. -/
def NVM_EXEC (s : NVM_t) : NVM_t :=
  if s.CMD = NVM_CMD_ERASE_WRITE_EEPROM_PAGE_gc then
    let page := (s.ADDR2 * 65536 + s.ADDR1 * 256 + s.ADDR0) / EEPROM_PAGE_SIZE
    { s with
      busy := s.opPolls + 1
      eeprom := fun a =>
        if a / EEPROM_PAGE_SIZE = page then
          match s.buffer (a % EEPROM_PAGE_SIZE) with
          | some v => v
          | none => s.eeprom a
        else s.eeprom a
      buffer := fun _ => none }
  else if s.CMD = NVM_CMD_ERASE_EEPROM_gc then
    { s with
      busy := s.opPolls + 1
      eeprom := fun a =>
        match s.buffer (a % EEPROM_PAGE_SIZE) with
        | some _ => 0xFF
        | none => s.eeprom a
      buffer := fun _ => none }
  else s

/-- The controller's reaction to one hardware action of the driver. -/
def step (s : NVM_t) : Action → NVM_t
  | .wait => EEP_WaitForNVM s
  | .write r v => s.writeReg r v
  | .exec => NVM_EXEC s

/-- Runs a trace on the controller, from state `s`. -/
def run (s : NVM_t) (t : Trace) : NVM_t :=
  t.foldl step s

/-- The busy flag as the driver tests it. -/
def NVM_t.isBusy (s : NVM_t) : Bool :=
  (s.STATUS &&& NVM_NVMBUSY_bm) == NVM_NVMBUSY_bm

/-! ## Observations on traces -/

/-- The values written to register `r`, in order. -/
def writtenTo (r : Reg) : Trace → List Nat
  | [] => []
  | .write q v :: t => if q = r then v :: writtenTo r t else writtenTo r t
  | _ :: t => writtenTo r t

/-- The bytes handed to the page buffer: for every write to DATA0, the value
of ADDR0 in force (`a0` before the first write to ADDR0) and the byte. -/
def loads (a0 : Nat) : Trace → List (Nat × Nat)
  | [] => []
  | .write .ADDR0 v :: t => loads v t
  | .write .DATA0 v :: t => (a0, v) :: loads a0 t
  | _ :: t => loads a0 t

/-- A controller after reset: idle, registers zero, page buffer empty, memory
erased. -/
def NVM_t.reset : NVM_t :=
  { busy := 0, opPolls := 0, CMD := 0, ADDR0 := 0, ADDR1 := 0, ADDR2 := 0, DATA0 := 0,
    buffer := fun _ => none, eeprom := fun _ => 0xFF }

/-- One call of the driver's interface. -/
inductive Call where
  | loadPageBuffer (data : List Nat) (size : Nat)
  | atomicWritePage (page_addr : Nat)
  | eraseAll

/-- The hardware actions of one call. -/
def Call.trace : Call → Option Trace
  | .loadPageBuffer data size => EEP_LoadPageBuffer data size
  | .atomicWritePage page_addr => some (EEP_AtomicWritePage page_addr)
  | .eraseAll => EEP_EraseAll

/-- The caller's obligation for a call: the buffer handed to
`EEP_LoadPageBuffer` holds the bytes that the clamped size asks for. -/
def Call.inBounds : Call → Prop
  | .loadPageBuffer data size => min size 32 ≤ data.length
  | .atomicWritePage _ => True
  | .eraseAll => True

/-- The hardware actions of a sequence of calls, one call after the other. -/
def callsTrace : List Call → Option Trace
  | [] => some []
  | c :: cs =>
    match c.trace, callsTrace cs with
    | some t, some u => some (t ++ u)
    | _, _ => none

/-- Syntactic discipline of a trace: scanning from the left with `ready` saying
whether the busy flag is known to be clear, every register write and every
execute trigger is met with `ready` true; a wait makes `ready` true and an
execute trigger makes it false. -/
def guarded : Bool → Trace → Bool
  | _, [] => true
  | _, .wait :: t => guarded true t
  | ready, .write _ _ :: t => ready && guarded ready t
  | ready, .exec :: t => ready && guarded false t

/-- The hardware actions of successive loop bodies for the bytes `bs`, the
counter starting at `i` and never wrapping (used to describe the loop's
result). -/
def pairsFrom : Nat → List Nat → Trace
  | _, [] => []
  | i, b :: bs => .write .ADDR0 i :: .write .DATA0 b :: pairsFrom (i + 1) bs

/-- The complete sequence of actions of a load of the bytes `bs` (used to
describe the result of `EEP_LoadPageBuffer`). -/
def loadTrace (bs : List Nat) : Trace :=
  .wait :: .write .CMD NVM_CMD_LOAD_EEPROM_BUFFER_gc :: .write .ADDR1 0 :: .write .ADDR2 0 ::
    pairsFrom 0 bs

/-! ## The loop of `EEP_LoadPageBuffer` -/

theorem clamp_eq_min (size : Nat) :
    (if size > EEPROM_PAGE_SIZE then EEPROM_PAGE_SIZE else size) = min size 32 := by
  unfold EEPROM_PAGE_SIZE
  split <;> omega

theorem loadLoop_some (size : Nat) (hsize : size ≤ 255) :
    ∀ (data : List Nat) (i : Nat), i ≤ size → size - i ≤ data.length →
      loadLoop size i data = some (pairsFrom i (data.take (size - i))) := by
  intro data
  induction data with
  | nil =>
    intro i hi hlen
    have h0 : size - i = 0 := by simpa using hlen
    have : ¬ i < size := by omega
    simp [loadLoop, this, pairsFrom]
  | cons b rest ih =>
    intro i hi hlen
    by_cases hlt : i < size
    · have hmod : (i + 1) % 256 = i + 1 := Nat.mod_eq_of_lt (by omega)
      have hsub : size - i = (size - (i + 1)) + 1 := by omega
      have hrest : size - (i + 1) ≤ rest.length := by
        simp only [List.length_cons] at hlen; omega
      simp only [loadLoop, hlt, if_true, hmod, ih (i + 1) (by omega) hrest]
      rw [hsub, List.take_succ_cons]
      simp [pairsFrom]
    · have h0 : size - i = 0 := by omega
      simp [loadLoop, hlt, h0, pairsFrom]

theorem loadLoop_none (size : Nat) (hsize : size ≤ 255) :
    ∀ (data : List Nat) (i : Nat), i ≤ size → data.length < size - i →
      loadLoop size i data = none := by
  intro data
  induction data with
  | nil =>
    intro i hi hlen
    have : i < size := by omega
    simp [loadLoop, this]
  | cons b rest ih =>
    intro i hi hlen
    have hlt : i < size := by omega
    have hmod : (i + 1) % 256 = i + 1 := Nat.mod_eq_of_lt (by omega)
    have hrest : rest.length < size - (i + 1) := by
      simp only [List.length_cons] at hlen; omega
    simp [loadLoop, hlt, hmod, ih (i + 1) (by omega) hrest]

/-- The result of `EEP_LoadPageBuffer` when the caller's buffer holds the
bytes that the clamped size asks for. -/
theorem EEP_LoadPageBuffer_eq (data : List Nat) (size : Nat)
    (h : min size 32 ≤ data.length) :
    EEP_LoadPageBuffer data size =
      some (.wait :: .write .CMD NVM_CMD_LOAD_EEPROM_BUFFER_gc :: .write .ADDR1 0 ::
        .write .ADDR2 0 :: pairsFrom 0 (data.take (min size 32))) := by
  unfold EEP_LoadPageBuffer
  simp only [clamp_eq_min]
  rw [loadLoop_some (min size 32) (by omega) data 0 (by omega) (by simpa using h)]
  simp

/-- When the caller's buffer is shorter than the clamped size the loop reads
past its end. -/
theorem EEP_LoadPageBuffer_none (data : List Nat) (size : Nat)
    (h : data.length < min size 32) :
    EEP_LoadPageBuffer data size = none := by
  unfold EEP_LoadPageBuffer
  simp only [clamp_eq_min]
  rw [loadLoop_none (min size 32) (by omega) data 0 (by omega) (by simpa using h)]

/-! ## What the loop writes -/

theorem writtenTo_append (r : Reg) (t u : Trace) :
    writtenTo r (t ++ u) = writtenTo r t ++ writtenTo r u := by
  induction t with
  | nil => rfl
  | cons a t ih =>
    cases a with
    | wait => simpa [writtenTo] using ih
    | exec => simpa [writtenTo] using ih
    | write q v =>
      by_cases hq : q = r <;> simp [writtenTo, hq, ih]

theorem writtenTo_DATA0_pairsFrom (bs : List Nat) :
    ∀ i, writtenTo .DATA0 (pairsFrom i bs) = bs := by
  induction bs with
  | nil => intro i; rfl
  | cons b bs ih => intro i; simp [pairsFrom, writtenTo, ih]

theorem writtenTo_ADDR0_pairsFrom (bs : List Nat) :
    ∀ i, writtenTo .ADDR0 (pairsFrom i bs) = List.range' i bs.length := by
  induction bs with
  | nil => intro i; rfl
  | cons b bs ih => intro i; simp [pairsFrom, writtenTo, ih, List.range'_succ]

theorem loads_pairsFrom (bs : List Nat) :
    ∀ i a0, loads a0 (pairsFrom i bs) = (List.range' i bs.length).zip bs := by
  induction bs with
  | nil => intro i a0; rfl
  | cons b bs ih =>
    intro i a0
    simp only [pairsFrom, loads, List.length_cons, List.range'_succ, List.zip_cons_cons]
    rw [ih (i + 1) i]

theorem pairsFrom_flatMap (bs : List Nat) :
    ∀ i, pairsFrom i bs =
      (List.range bs.length).flatMap
        (fun j => [Action.write .ADDR0 (i + j), Action.write .DATA0 (bs.getD j 0)]) := by
  induction bs with
  | nil => intro i; rfl
  | cons b bs ih =>
    intro i
    rw [pairsFrom, ih (i + 1), List.length_cons, List.range_succ_eq_map]
    simp [List.flatMap_map, Nat.add_assoc, Nat.add_comm 1]

theorem pairsFrom_split (bs : List Nat) :
    ∀ i j b, bs[j]? = some b →
      pairsFrom i bs =
        pairsFrom i (bs.take j) ++
          Action.write .ADDR0 (i + j) :: Action.write .DATA0 b ::
            pairsFrom (i + j + 1) (bs.drop (j + 1)) := by
  induction bs with
  | nil => intro i j b h; simp at h
  | cons c bs ih =>
    intro i j b h
    cases j with
    | zero =>
      simp only [List.getElem?_cons_zero, Option.some.injEq] at h
      simp [pairsFrom, h]
    | succ j =>
      simp only [List.getElem?_cons_succ] at h
      simp only [pairsFrom, List.take_succ_cons, List.drop_succ_cons, List.cons_append]
      rw [ih (i + 1) j b h]
      simp [Nat.add_assoc, Nat.add_comm 1]

theorem exec_not_mem_pairsFrom (bs : List Nat) : ∀ i, Action.exec ∉ pairsFrom i bs := by
  induction bs with
  | nil => intro i; simp [pairsFrom]
  | cons b bs ih => intro i; simp [pairsFrom, ih]

theorem wait_not_mem_pairsFrom (bs : List Nat) : ∀ i, Action.wait ∉ pairsFrom i bs := by
  induction bs with
  | nil => intro i; simp [pairsFrom]
  | cons b bs ih => intro i; simp [pairsFrom, ih]

/-! ## The controller: basic facts -/

theorem status_test (s : NVM_t) :
    (s.STATUS &&& NVM_NVMBUSY_bm) = NVM_NVMBUSY_bm ↔ s.busy ≠ 0 := by
  unfold NVM_t.STATUS NVM_NVMBUSY_bm
  by_cases h : s.busy = 0 <;> simp [h]

theorem isBusy_iff (s : NVM_t) : s.isBusy = true ↔ s.busy ≠ 0 := by
  simp [NVM_t.isBusy, status_test]

theorem wait_aux (n : Nat) : ∀ s : NVM_t, s.busy = n → EEP_WaitForNVM s = { s with busy := 0 } := by
  induction n with
  | zero =>
    intro s hs
    rw [EEP_WaitForNVM]
    have : ¬ ((s.STATUS &&& NVM_NVMBUSY_bm) = NVM_NVMBUSY_bm) := by
      rw [status_test]; simp [hs]
    simp only [this, dite_false]
    cases s
    simp_all
  | succ n ih =>
    intro s hs
    rw [EEP_WaitForNVM]
    have : (s.STATUS &&& NVM_NVMBUSY_bm) = NVM_NVMBUSY_bm := by
      rw [status_test]; omega
    simp only [this, dite_true]
    rw [ih s.poll (by simp [NVM_t.poll, hs])]
    simp [NVM_t.poll]

/-- The wait loop terminates on every controller state and returns with the
busy flag clear and everything else as it was. -/
theorem EEP_WaitForNVM_eq (s : NVM_t) : EEP_WaitForNVM s = { s with busy := 0 } :=
  wait_aux s.busy s rfl

theorem run_nil (s : NVM_t) : run s [] = s := rfl

theorem run_cons (s : NVM_t) (a : Action) (t : Trace) : run s (a :: t) = run (step s a) t := rfl

theorem run_append (s : NVM_t) (t u : Trace) : run s (t ++ u) = run (run s t) u := by
  simp [run, List.foldl_append]

theorem step_wait (s : NVM_t) : step s .wait = { s with busy := 0 } := by
  simp [step, EEP_WaitForNVM_eq]

theorem step_write_busy (s : NVM_t) (r : Reg) (v : Nat) : (step s (.write r v)).busy = s.busy := by
  cases r <;> simp [step, NVM_t.writeReg]
  split <;> rfl

/-- Running the loop's actions leaves everything but ADDR0, DATA0 and the page
buffer as it was. -/
theorem run_pairsFrom_frame (bs : List Nat) :
    ∀ (i : Nat) (s : NVM_t),
      (run s (pairsFrom i bs)).busy = s.busy ∧
      (run s (pairsFrom i bs)).opPolls = s.opPolls ∧
      (run s (pairsFrom i bs)).CMD = s.CMD ∧
      (run s (pairsFrom i bs)).ADDR1 = s.ADDR1 ∧
      (run s (pairsFrom i bs)).ADDR2 = s.ADDR2 ∧
      (run s (pairsFrom i bs)).eeprom = s.eeprom := by
  induction bs with
  | nil => intro i s; simp [pairsFrom, run_nil]
  | cons b bs ih =>
    intro i s
    simp only [pairsFrom, run_cons]
    obtain ⟨h1, h2, h3, h4, h5, h6⟩ :=
      ih (i + 1) (step (step s (.write .ADDR0 i)) (.write .DATA0 b))
    rw [h1, h2, h3, h4, h5, h6]
    simp only [step, NVM_t.writeReg]
    split <;> simp

/-- After the loop ADDR0 holds the last counter value. -/
theorem run_pairsFrom_ADDR0 (bs : List Nat) :
    ∀ (i : Nat) (s : NVM_t), bs ≠ [] →
      (run s (pairsFrom i bs)).ADDR0 = (i + bs.length - 1) % 256 := by
  induction bs with
  | nil => intro i s h; exact absurd rfl h
  | cons b bs ih =>
    intro i s _
    simp only [pairsFrom, run_cons]
    cases bs with
    | nil =>
      simp only [pairsFrom, run_nil, step, NVM_t.writeReg]
      split <;> simp
    | cons c cs =>
      rw [ih (i + 1) _ (by simp)]
      simp only [List.length_cons]
      congr 1
      omega

/-- A page-buffer position that no loop iteration addresses keeps its mark and
its byte. -/
theorem run_pairsFrom_buffer_other (bs : List Nat) :
    ∀ (i : Nat) (s : NVM_t) (k : Nat),
      (∀ j, j < bs.length → k ≠ (i + j) % 256 % 32) →
      (run s (pairsFrom i bs)).buffer k = s.buffer k := by
  induction bs with
  | nil => intro i s k _; rfl
  | cons b bs ih =>
    intro i s k hk
    simp only [pairsFrom, run_cons]
    rw [ih (i + 1) _ k]
    · have h0 : k ≠ i % 256 % 32 := by
        have := hk 0 (by simp)
        simpa using this
      simp only [step, NVM_t.writeReg]
      split
      · simp [EEPROM_PAGE_SIZE, h0]
      · rfl
    · intro j hj
      have := hk (j + 1) (by simpa using hj)
      rw [show i + 1 + j = i + (j + 1) by omega]
      exact this

/-- With the load-page-buffer command selected, the loop latches byte `j` of its
input at position `i + j` of the page buffer. -/
theorem run_pairsFrom_buffer_loaded (bs : List Nat) :
    ∀ (i : Nat) (s : NVM_t), s.CMD = NVM_CMD_LOAD_EEPROM_BUFFER_gc → i + bs.length ≤ 32 →
      ∀ j b, bs[j]? = some b → (run s (pairsFrom i bs)).buffer (i + j) = some (b % 256) := by
  induction bs with
  | nil => intro i s _ _ j b h; simp at h
  | cons c bs ih =>
    intro i s hcmd hlen j b h
    simp only [List.length_cons] at hlen
    simp only [pairsFrom, run_cons]
    have hcmd2 : (step (step s (.write .ADDR0 i)) (.write .DATA0 c)).CMD =
        NVM_CMD_LOAD_EEPROM_BUFFER_gc := by
      simp only [step, NVM_t.writeReg]
      split <;> simpa using hcmd
    cases j with
    | zero =>
      simp only [List.getElem?_cons_zero, Option.some.injEq] at h
      rw [run_pairsFrom_buffer_other bs (i + 1) _ (i + 0)]
      · simp only [step, NVM_t.writeReg]
        rw [if_pos (by simpa using hcmd)]
        have : i % 256 % EEPROM_PAGE_SIZE = i := by
          unfold EEPROM_PAGE_SIZE; omega
        simp [this, h]
      · intro j hj
        omega
    | succ j =>
      simp only [List.getElem?_cons_succ] at h
      have := ih (i + 1) _ hcmd2 (by omega) j b h
      rw [show i + (j + 1) = i + 1 + j by omega]
      exact this

theorem EEP_LoadPageBuffer_loadTrace (data : List Nat) (size : Nat)
    (h : min size 32 ≤ data.length) :
    EEP_LoadPageBuffer data size = some (loadTrace (data.take (min size 32))) :=
  EEP_LoadPageBuffer_eq data size h

theorem loads_no_data (u : Trace) (h : writtenTo .DATA0 u = []) : ∀ a0, loads a0 u = [] := by
  induction u with
  | nil => intro a0; rfl
  | cons a u ih =>
    intro a0
    cases a with
    | wait => exact ih (by simpa [writtenTo] using h) a0
    | exec => exact ih (by simpa [writtenTo] using h) a0
    | write r v =>
      cases r with
      | DATA0 => simp [writtenTo] at h
      | CMD => exact ih (by simpa [writtenTo] using h) a0
      | ADDR0 => exact ih (by simpa [writtenTo] using h) v
      | ADDR1 => exact ih (by simpa [writtenTo] using h) a0
      | ADDR2 => exact ih (by simpa [writtenTo] using h) a0

theorem loads_append (t u : Trace) (h : writtenTo .DATA0 u = []) :
    ∀ a0, loads a0 (t ++ u) = loads a0 t := by
  induction t with
  | nil => intro a0; exact loads_no_data u h a0
  | cons a t ih =>
    intro a0
    cases a with
    | wait => exact ih a0
    | exec => exact ih a0
    | write r v =>
      cases r with
      | DATA0 => simp [loads, ih a0]
      | CMD => exact ih a0
      | ADDR0 => exact ih v
      | ADDR1 => exact ih a0
      | ADDR2 => exact ih a0

theorem loads_loadTrace (bs : List Nat) (a0 : Nat) :
    loads a0 (loadTrace bs) = (List.range bs.length).zip bs := by
  simp [loadTrace, loads, loads_pairsFrom, List.range_eq_range']

/-- The controller after a load of at most a page: the memory is untouched, the
positions from `bs.length` on keep their state, and position `j` holds byte `j`
of the input. -/
theorem run_loadTrace (bs : List Nat) (hlen : bs.length ≤ 32) (s : NVM_t) :
    (run s (loadTrace bs)).eeprom = s.eeprom ∧
    (∀ k, bs.length ≤ k → k < 32 → (run s (loadTrace bs)).buffer k = s.buffer k) ∧
    (∀ j b, bs[j]? = some b → (run s (loadTrace bs)).buffer j = some (b % 256)) := by
  simp only [loadTrace, run_cons]
  refine ⟨?_, ?_, ?_⟩
  · rw [(run_pairsFrom_frame bs 0 _).2.2.2.2.2]
    simp [step, NVM_t.writeReg, EEP_WaitForNVM_eq]
  · intro k hk1 hk2
    rw [run_pairsFrom_buffer_other bs 0 _ k (by intro j hj; omega)]
    simp [step, NVM_t.writeReg, EEP_WaitForNVM_eq]
  · intro j b hj
    have := run_pairsFrom_buffer_loaded bs 0
      (step (step (step (step s .wait) (.write .CMD NVM_CMD_LOAD_EEPROM_BUFFER_gc))
        (.write .ADDR1 0)) (.write .ADDR2 0))
      (by simp [step, NVM_t.writeReg, NVM_CMD_LOAD_EEPROM_BUFFER_gc]) (by omega) j b hj
    simpa using this

/-! ## Address arithmetic of `EEP_AtomicWritePage` -/

theorem and_FF (a : Nat) : a &&& 0xFF = a % 256 :=
  Nat.and_pow_two_sub_one_eq_mod a 8

theorem and_1F (a : Nat) : a &&& 0x1F = a % 32 :=
  Nat.and_pow_two_sub_one_eq_mod a 5

theorem shr_8 (a : Nat) : a >>> 8 = a / 256 :=
  Nat.shiftRight_eq_div_pow a 8

theorem address_eq (page_addr : Nat) (h : page_addr < 256) :
    (page_addr * EEPROM_PAGE_SIZE) % 65536 = page_addr * 32 := by
  unfold EEPROM_PAGE_SIZE
  omega

/-- The trace of `EEP_AtomicWritePage` with the bit operations resolved. -/
theorem EEP_AtomicWritePage_eq (page_addr : Nat) (h : page_addr < 256) :
    EEP_AtomicWritePage page_addr =
      [Action.wait,
       Action.write .ADDR0 ((page_addr * 32) % 256),
       Action.write .ADDR1 ((page_addr * 32) / 256 % 32),
       Action.write .ADDR2 0,
       Action.write .CMD NVM_CMD_ERASE_WRITE_EEPROM_PAGE_gc,
       Action.exec,
       Action.wait] := by
  unfold EEP_AtomicWritePage
  simp only [address_eq page_addr h, and_FF, and_1F, shr_8]

/-- The controller after the actions of `EEP_AtomicWritePage`. -/
theorem run_AtomicWritePage (page_addr : Nat) (h : page_addr < 256) (s : NVM_t) :
    run s (EEP_AtomicWritePage page_addr) =
      { s with
        busy := 0
        ADDR0 := (page_addr * 32) % 256
        ADDR1 := (page_addr * 32) / 256
        ADDR2 := 0
        CMD := NVM_CMD_ERASE_WRITE_EEPROM_PAGE_gc
        eeprom := fun a =>
          if a / 32 = page_addr then
            match s.buffer (a % 32) with
            | some v => v
            | none => s.eeprom a
          else s.eeprom a
        buffer := fun _ => none } := by
  have h1 : page_addr * 32 / 256 % 32 % 256 = page_addr * 32 / 256 := by omega
  have h2 : (page_addr * 32 / 256 * 256 + page_addr * 32 % 256) / 32 = page_addr := by omega
  rw [EEP_AtomicWritePage_eq page_addr h]
  simp [run, step, NVM_t.writeReg, NVM_EXEC, EEP_WaitForNVM_eq,
    NVM_CMD_ERASE_WRITE_EEPROM_PAGE_gc, EEPROM_PAGE_SIZE, h1, h2]

/-! ## The wait-before-write discipline -/

theorem guarded_mono (t : Trace) : ∀ b, guarded false t = true → guarded b t = true := by
  cases t with
  | nil => intro b _; rfl
  | cons a t =>
    intro b h
    cases a with
    | wait => simpa [guarded] using h
    | write r v => simp [guarded] at h
    | exec => simp [guarded] at h

theorem guarded_append (t u : Trace) (hu : guarded false u = true) :
    ∀ b, guarded b t = true → guarded b (t ++ u) = true := by
  induction t with
  | nil => intro b _; exact guarded_mono u b hu
  | cons a t ih =>
    intro b h
    cases a with
    | wait => exact ih true (by simpa [guarded] using h)
    | write r v =>
      simp only [guarded, Bool.and_eq_true] at h
      simp only [List.cons_append, guarded, Bool.and_eq_true]
      exact ⟨h.1, ih b h.2⟩
    | exec =>
      simp only [guarded, Bool.and_eq_true] at h
      simp only [List.cons_append, guarded, Bool.and_eq_true]
      exact ⟨h.1, ih false h.2⟩

theorem guarded_pairsFrom (bs : List Nat) : ∀ i, guarded true (pairsFrom i bs) = true := by
  induction bs with
  | nil => intro i; rfl
  | cons b bs ih => intro i; simp [pairsFrom, guarded, ih]

/-- On a disciplined trace every action other than a wait meets the controller
with the busy flag clear. -/
theorem guarded_sound (t : Trace) :
    ∀ (b : Bool) (s : NVM_t), guarded b t = true → (b = true → s.busy = 0) →
      ∀ pre a post, t = pre ++ a :: post → a ≠ Action.wait → (run s pre).busy = 0 := by
  induction t with
  | nil => intro b s _ _ pre a post h; simp at h
  | cons x t ih =>
    intro b s hg hb pre a post h ha
    cases pre with
    | nil =>
      simp only [List.nil_append, List.cons.injEq] at h
      obtain ⟨hx, _⟩ := h
      subst hx
      rw [run_nil]
      cases x with
      | wait => exact absurd rfl ha
      | write r v =>
        simp only [guarded, Bool.and_eq_true] at hg
        exact hb hg.1
      | exec =>
        simp only [guarded, Bool.and_eq_true] at hg
        exact hb hg.1
    | cons y pre =>
      simp only [List.cons_append, List.cons.injEq] at h
      obtain ⟨hx, ht⟩ := h
      subst hx
      rw [run_cons]
      cases x with
      | wait =>
        exact ih true _ (by simpa [guarded] using hg) (fun _ => by rw [step_wait]) pre a post ht ha
      | write r v =>
        simp only [guarded, Bool.and_eq_true] at hg
        exact ih b _ hg.2 (fun hb2 => by rw [step_write_busy]; exact hb hb2) pre a post ht ha
      | exec =>
        simp only [guarded, Bool.and_eq_true] at hg
        exact ih false _ hg.2 (fun hb2 => by simp at hb2) pre a post ht ha

/-- Every call of the interface starts with the wait and is disciplined. -/
theorem call_guarded (c : Call) (hc : c.inBounds) :
    ∃ t, c.trace = some (Action.wait :: t) ∧ guarded false (Action.wait :: t) = true := by
  cases c with
  | loadPageBuffer data size =>
    refine ⟨_, EEP_LoadPageBuffer_eq data size hc, ?_⟩
    simp [guarded, guarded_pairsFrom]
  | atomicWritePage page_addr =>
    exact ⟨_, rfl, by simp [guarded]⟩
  | eraseAll =>
    refine ⟨(Action.write .CMD NVM_CMD_LOAD_EEPROM_BUFFER_gc :: Action.write .ADDR1 0 ::
        Action.write .ADDR2 0 :: pairsFrom 0 (blank.take (min 32 32))) ++
        [Action.wait, Action.write .CMD NVM_CMD_ERASE_EEPROM_gc, Action.exec], ?_, ?_⟩
    · show EEP_EraseAll = _
      unfold EEP_EraseAll
      rw [EEP_LoadPageBuffer_eq blank 32 (by decide)]
      rfl
    · exact guarded_append (Action.wait :: Action.write .CMD NVM_CMD_LOAD_EEPROM_BUFFER_gc ::
        Action.write .ADDR1 0 :: Action.write .ADDR2 0 :: pairsFrom 0 (blank.take (min 32 32)))
        _ (by decide) false (by simp [guarded, guarded_pairsFrom])

theorem callsTrace_guarded (cs : List Call) (hcs : ∀ c ∈ cs, c.inBounds) :
    ∃ tr, callsTrace cs = some tr ∧ guarded false tr = true := by
  induction cs with
  | nil => exact ⟨[], rfl, rfl⟩
  | cons c cs ih =>
    obtain ⟨t, ht, hgt⟩ := call_guarded c (hcs c (by simp))
    obtain ⟨u, hu, hgu⟩ := ih (fun d hd => hcs d (by simp [hd]))
    refine ⟨(Action.wait :: t) ++ u, ?_, guarded_append _ u hgu false hgt⟩
    simp [callsTrace, ht, hu]

/-! ## Claims about `EEP_LoadPageBuffer` -/

/-- C1: for a buffer that holds at least min(size, 32) bytes,
`EEP_LoadPageBuffer` performs exactly min(size, 32) writes to DATA0 (32 when
size > 32, size when size <= 32, none when size = 0); the offsets written to
ADDR0 are 0, 1, ..., min(size, 32) - 1 in this order; and the i-th write to
DATA0 (exactly i writes to DATA0 come before it) is immediately preceded by the
write ADDR0 = i and writes the byte data[i]. -/
theorem EEP_LoadPageBuffer_writes (data : List Nat) (size : Nat)
    (h : min size 32 ≤ data.length) :
    ∃ t, EEP_LoadPageBuffer data size = some t ∧
      (writtenTo .DATA0 t).length = min size 32 ∧
      (32 < size → (writtenTo .DATA0 t).length = 32) ∧
      (size ≤ 32 → (writtenTo .DATA0 t).length = size) ∧
      (size = 0 → writtenTo .DATA0 t = []) ∧
      writtenTo .ADDR0 t = List.range (min size 32) ∧
      (∀ i, i < min size 32 →
        ∃ pre post b, data[i]? = some b ∧
          t = pre ++ Action.write .ADDR0 i :: Action.write .DATA0 b :: post ∧
          (writtenTo .DATA0 pre).length = i) := by
  refine ⟨_, EEP_LoadPageBuffer_eq data size h, ?_⟩
  have hd : writtenTo .DATA0
      (Action.wait :: Action.write .CMD NVM_CMD_LOAD_EEPROM_BUFFER_gc :: Action.write .ADDR1 0 ::
        Action.write .ADDR2 0 :: pairsFrom 0 (data.take (min size 32))) =
      data.take (min size 32) := by
    simp [writtenTo, writtenTo_DATA0_pairsFrom]
  have hlen : (data.take (min size 32)).length = min size 32 := by
    rw [List.length_take]; omega
  refine ⟨by rw [hd, hlen], ?_, ?_, ?_, ?_, ?_⟩
  · intro hs; rw [hd, hlen]; omega
  · intro hs; rw [hd, hlen]; omega
  · intro hs; rw [hd]; subst hs; simp
  · simp [writtenTo, writtenTo_ADDR0_pairsFrom, hlen, List.range_eq_range']
  · intro i hi
    have hi2 : i < data.length := by omega
    have hget : (data.take (min size 32))[i]? = some data[i] := by
      rw [List.getElem?_take_of_lt hi]
      exact List.getElem?_eq_getElem hi2
    refine ⟨Action.wait :: Action.write .CMD NVM_CMD_LOAD_EEPROM_BUFFER_gc ::
        Action.write .ADDR1 0 :: Action.write .ADDR2 0 ::
        pairsFrom 0 ((data.take (min size 32)).take i),
      pairsFrom (0 + i + 1) ((data.take (min size 32)).drop (i + 1)), data[i],
      List.getElem?_eq_getElem hi2, ?_, ?_⟩
    · have := pairsFrom_split (data.take (min size 32)) 0 i data[i] hget
      rw [this]
      simp
    · simp [writtenTo, writtenTo_DATA0_pairsFrom, List.length_take]
      omega

/-- Witness for C1: a 3-byte buffer loaded with size 2. -/
theorem EEP_LoadPageBuffer_writes_witness :
    min 2 32 ≤ [0x11, 0x22, 0x33].length ∧
    ∃ t, EEP_LoadPageBuffer [0x11, 0x22, 0x33] 2 = some t ∧
      (writtenTo .DATA0 t).length = 2 ∧
      writtenTo .ADDR0 t = [0, 1] :=
  ⟨by decide, by
    obtain ⟨t, h1, h2, _, _, _, h6, _⟩ :=
      EEP_LoadPageBuffer_writes [0x11, 0x22, 0x33] 2 (by decide)
    exact ⟨t, h1, h2, h6⟩⟩

/-- C8: the trace of `EEP_LoadPageBuffer` is, in this order, the wait for
ready, CMD = load-page-buffer, ADDR1 = 0, ADDR2 = 0 and then the pairs
(ADDR0 = i, DATA0 = data[i]) for i = 0, ..., min(size, 32) - 1.  The trace
holds no execute trigger, and on return CMD holds the load-page-buffer opcode,
ADDR1 = 0 and ADDR2 = 0; ADDR0 is min(size, 32) - 1 when size > 0 and is
unchanged when size = 0. -/
theorem EEP_LoadPageBuffer_trace (data : List Nat) (size : Nat)
    (h : min size 32 ≤ data.length) :
    ∃ t, EEP_LoadPageBuffer data size = some t ∧
      t = [Action.wait, Action.write .CMD NVM_CMD_LOAD_EEPROM_BUFFER_gc,
            Action.write .ADDR1 0, Action.write .ADDR2 0] ++
          (List.range (min size 32)).flatMap
            (fun i => [Action.write .ADDR0 i, Action.write .DATA0 (data.getD i 0)]) ∧
      Action.exec ∉ t ∧
      ∀ s : NVM_t,
        (run s t).CMD = NVM_CMD_LOAD_EEPROM_BUFFER_gc ∧
        (run s t).ADDR1 = 0 ∧
        (run s t).ADDR2 = 0 ∧
        (0 < size → (run s t).ADDR0 = min size 32 - 1) ∧
        (size = 0 → (run s t).ADDR0 = s.ADDR0) := by
  refine ⟨_, EEP_LoadPageBuffer_eq data size h, ?_, ?_, ?_⟩
  · have hlen : (data.take (min size 32)).length = min size 32 := by
      rw [List.length_take]; omega
    rw [pairsFrom_flatMap, hlen]
    simp only [List.cons_append, List.nil_append, List.cons.injEq, true_and]
    apply List.flatMap_congr
    intro j hj
    have hj2 : j < min size 32 := List.mem_range.mp hj
    simp [List.getD_eq_getElem?_getD, List.getElem?_take_of_lt hj2]
  · simp [exec_not_mem_pairsFrom]
  · intro s
    simp only [run_cons]
    obtain ⟨_, _, h3, h4, h5, _⟩ := run_pairsFrom_frame (data.take (min size 32)) 0
      (step (step (step (step s .wait) (.write .CMD NVM_CMD_LOAD_EEPROM_BUFFER_gc))
        (.write .ADDR1 0)) (.write .ADDR2 0))
    refine ⟨?_, ?_, ?_, ?_, ?_⟩
    · rw [h3]; simp [step, NVM_t.writeReg, NVM_CMD_LOAD_EEPROM_BUFFER_gc]
    · rw [h4]; simp [step, NVM_t.writeReg]
    · rw [h5]; simp [step, NVM_t.writeReg]
    · intro hs
      have hlen : (data.take (min size 32)).length = min size 32 := by
        rw [List.length_take]; omega
      rw [run_pairsFrom_ADDR0 _ _ _ (by
        intro hnil
        rw [hnil] at hlen
        simp at hlen
        omega)]
      rw [hlen]
      omega
    · intro hs
      subst hs
      simp [pairsFrom, run_nil, step, NVM_t.writeReg, EEP_WaitForNVM_eq]

/-- Witness for C8: two bytes loaded from a 2-byte buffer. -/
theorem EEP_LoadPageBuffer_trace_witness :
    min 2 32 ≤ [0xAB, 0xCD].length ∧
    ∃ t, EEP_LoadPageBuffer [0xAB, 0xCD] 2 = some t ∧
      t = [Action.wait, Action.write .CMD NVM_CMD_LOAD_EEPROM_BUFFER_gc,
            Action.write .ADDR1 0, Action.write .ADDR2 0,
            Action.write .ADDR0 0, Action.write .DATA0 0xAB,
            Action.write .ADDR0 1, Action.write .DATA0 0xCD] ∧
      Action.exec ∉ t :=
  ⟨by decide, by
    obtain ⟨t, h1, h2, h3, _⟩ := EEP_LoadPageBuffer_trace [0xAB, 0xCD] 2 (by decide)
    refine ⟨t, h1, ?_, h3⟩
    rw [h2]
    decide⟩

/-- C10: clamping makes an oversized load the same as a full-page load and
keeps the reads in bounds.  For size > 32 the result equals that for size 32;
two buffers that agree on their first min(size, 32) bytes give the same result;
the function stays inside the caller's buffer exactly when the buffer holds
min(size, 32) bytes, so it reads the indices 0 .. min(size, 32) - 1 and no
other; and then the loop ends after min(size, 32) iterations, the counter
values written to ADDR0 being 0, ..., min(size, 32) - 1, none of which wraps
when incremented. -/
theorem EEP_LoadPageBuffer_clamped (data data1 data2 : List Nat) (size : Nat) :
    (32 < size → EEP_LoadPageBuffer data size = EEP_LoadPageBuffer data 32) ∧
    (data1.take (min size 32) = data2.take (min size 32) →
      EEP_LoadPageBuffer data1 size = EEP_LoadPageBuffer data2 size) ∧
    ((EEP_LoadPageBuffer data size).isSome = true ↔ min size 32 ≤ data.length) ∧
    (min size 32 ≤ data.length →
      ∃ t, EEP_LoadPageBuffer data size = some t ∧
        writtenTo .ADDR0 t = List.range (min size 32) ∧
        writtenTo .DATA0 t = data.take (min size 32) ∧
        (writtenTo .ADDR0 t).length = min size 32 ∧
        ∀ i ∈ writtenTo .ADDR0 t, (i + 1) % 256 = i + 1) := by
  refine ⟨?_, ?_, ?_, ?_⟩
  · intro hs
    unfold EEP_LoadPageBuffer
    have h1 : (if size > EEPROM_PAGE_SIZE then EEPROM_PAGE_SIZE else size) = 32 := by
      rw [clamp_eq_min]; omega
    have h2 : (if 32 > EEPROM_PAGE_SIZE then EEPROM_PAGE_SIZE else 32) = 32 := by
      rw [clamp_eq_min]; rfl
    simp only [h1, h2]
  · intro hagree
    by_cases h1 : min size 32 ≤ data1.length
    · have h2 : min size 32 ≤ data2.length := by
        have := congrArg List.length hagree
        simp only [List.length_take] at this
        omega
      rw [EEP_LoadPageBuffer_eq data1 size h1, EEP_LoadPageBuffer_eq data2 size h2, hagree]
    · have h2 : ¬ min size 32 ≤ data2.length := by
        have := congrArg List.length hagree
        simp only [List.length_take] at this
        omega
      rw [EEP_LoadPageBuffer_none data1 size (by omega),
        EEP_LoadPageBuffer_none data2 size (by omega)]
  · by_cases h1 : min size 32 ≤ data.length
    · simp [EEP_LoadPageBuffer_eq data size h1, h1]
    · simp [EEP_LoadPageBuffer_none data size (by omega), h1]
  · intro h
    have hlen : (data.take (min size 32)).length = min size 32 := by
      rw [List.length_take]; omega
    have ha : writtenTo .ADDR0
        (Action.wait :: Action.write .CMD NVM_CMD_LOAD_EEPROM_BUFFER_gc ::
          Action.write .ADDR1 0 :: Action.write .ADDR2 0 ::
          pairsFrom 0 (data.take (min size 32))) = List.range (min size 32) := by
      simp [writtenTo, writtenTo_ADDR0_pairsFrom, hlen, List.range_eq_range']
    refine ⟨_, EEP_LoadPageBuffer_eq data size h, ha, ?_, ?_, ?_⟩
    · simp [writtenTo, writtenTo_DATA0_pairsFrom]
    · rw [ha, List.length_range]
    · intro i hi
      rw [ha, List.mem_range] at hi
      exact Nat.mod_eq_of_lt (by omega)

/-- Witness for C10: size 200 on a 32-byte buffer is clamped to the full page,
two buffers that differ only from index 2 on give the same trace for size 2,
and the load stays in bounds. -/
theorem EEP_LoadPageBuffer_clamped_witness :
    (32 < 200 ∧ EEP_LoadPageBuffer blank 200 = EEP_LoadPageBuffer blank 32) ∧
    (List.take (min 2 32) [1, 2, 3] = List.take (min 2 32) [1, 2, 4, 5] ∧
      EEP_LoadPageBuffer [1, 2, 3] 2 = EEP_LoadPageBuffer [1, 2, 4, 5] 2) ∧
    (min 200 32 ≤ blank.length ∧ (EEP_LoadPageBuffer blank 200).isSome = true) :=
  ⟨⟨by decide, (EEP_LoadPageBuffer_clamped blank [] [] 200).1 (by decide)⟩,
   ⟨by decide, (EEP_LoadPageBuffer_clamped [] [1, 2, 3] [1, 2, 4, 5] 2).2.1 (by decide)⟩,
   ⟨by decide, (EEP_LoadPageBuffer_clamped blank [] [] 200).2.2.1.mpr (by decide)⟩⟩

/-! ## Claims about `EEP_EraseAll` -/

/-- C3: every run of `EEP_EraseAll` loads a full page buffer of 0xFF before the
erase command.  Its trace is the trace of `EEP_LoadPageBuffer` on 32 bytes of
0xFF with size 32, followed by the wait for ready, CMD = erase-all and the
execute trigger; it holds exactly 32 writes to DATA0, each of 0xFF, at the
offsets ADDR0 = 0, ..., 31 in order, and all of them come before the write of
the erase-all opcode and before the execute trigger, which the load part does
not contain. -/
theorem EEP_EraseAll_trace :
    ∃ t, EEP_LoadPageBuffer (List.replicate 32 0xFF) 32 = some t ∧
      EEP_EraseAll =
        some (t ++ [Action.wait, Action.write .CMD NVM_CMD_ERASE_EEPROM_gc, Action.exec]) ∧
      (∃ u, EEP_EraseAll = some u ∧
        (writtenTo .DATA0 u).length = 32 ∧
        writtenTo .DATA0 u = List.replicate 32 0xFF ∧
        (∀ a0, loads a0 u = (List.range 32).map (fun i => (i, 0xFF)))) ∧
      (writtenTo .DATA0 t).length = 32 ∧
      writtenTo .DATA0 [Action.wait, Action.write .CMD NVM_CMD_ERASE_EEPROM_gc, Action.exec] = [] ∧
      Action.write .CMD NVM_CMD_ERASE_EEPROM_gc ∉ t ∧
      Action.exec ∉ t := by
  refine ⟨_, EEP_LoadPageBuffer_eq (List.replicate 32 0xFF) 32 (by decide), ?_, ?_, ?_, ?_, ?_, ?_⟩
  · decide
  · refine ⟨_, rfl, ?_, ?_, ?_⟩
    · decide
    · decide
    · intro a0
      rfl
  · decide
  · decide
  · decide
  · decide

/-! ## Claims about `EEP_AtomicWritePage` -/

/-- C2: for every 8-bit page_addr, `EEP_AtomicWritePage` computes
address = page_addr * 32, writes ADDR0 = address mod 256, ADDR1 =
(address div 256) mod 32 and ADDR2 = 0, then writes the atomic erase-and-write
opcode to CMD and fires the execute trigger; on return the address registers
hold these three values. -/
theorem EEP_AtomicWritePage_address (page_addr : Nat) (h : page_addr < 256) (s : NVM_t) :
    (page_addr * EEPROM_PAGE_SIZE) % 65536 = page_addr * 32 ∧
    EEP_AtomicWritePage page_addr =
      [Action.wait,
       Action.write .ADDR0 ((page_addr * 32) % 256),
       Action.write .ADDR1 ((page_addr * 32) / 256 % 32),
       Action.write .ADDR2 0,
       Action.write .CMD NVM_CMD_ERASE_WRITE_EEPROM_PAGE_gc,
       Action.exec,
       Action.wait] ∧
    (run s (EEP_AtomicWritePage page_addr)).ADDR0 = (page_addr * 32) % 256 ∧
    (run s (EEP_AtomicWritePage page_addr)).ADDR1 = (page_addr * 32) / 256 % 32 ∧
    (run s (EEP_AtomicWritePage page_addr)).ADDR2 = 0 ∧
    (run s (EEP_AtomicWritePage page_addr)).CMD = NVM_CMD_ERASE_WRITE_EEPROM_PAGE_gc := by
  refine ⟨address_eq page_addr h, EEP_AtomicWritePage_eq page_addr h, ?_, ?_, ?_, ?_⟩
  · rw [run_AtomicWritePage page_addr h]
  · rw [run_AtomicWritePage page_addr h]
    show page_addr * 32 / 256 = page_addr * 32 / 256 % 32
    omega
  · rw [run_AtomicWritePage page_addr h]
  · rw [run_AtomicWritePage page_addr h]

/-- Witness for C2: page 200 has byte address 6400 = 0x1900. -/
theorem EEP_AtomicWritePage_address_witness :
    200 < 256 ∧
    (run NVM_t.reset (EEP_AtomicWritePage 200)).ADDR0 = 0x00 ∧
    (run NVM_t.reset (EEP_AtomicWritePage 200)).ADDR1 = 0x19 ∧
    (run NVM_t.reset (EEP_AtomicWritePage 200)).ADDR2 = 0 := by
  obtain ⟨_, _, h3, h4, h5, _⟩ := EEP_AtomicWritePage_address 200 (by decide) NVM_t.reset
  exact ⟨by decide, h3, h4, h5⟩

/-- C9: for every 8-bit page_addr the address split loses no bits.  The
product page_addr * 32 is at most 8160, so the 16-bit cast changes nothing and
the product is below 2^13; the mask 0x1F removes nothing from the high byte;
the written values satisfy ADDR1 * 256 + ADDR0 = page_addr * 32, ADDR0 is a
multiple of 32 and ADDR1 <= 31; and two page indices that give the same written
(ADDR0, ADDR1) pair are equal. -/
theorem EEP_AtomicWritePage_split_exact (p q : Nat) (hp : p < 256) (hq : q < 256) :
    p * EEPROM_PAGE_SIZE ≤ 8160 ∧
    (p * EEPROM_PAGE_SIZE) % 65536 = p * EEPROM_PAGE_SIZE ∧
    p * EEPROM_PAGE_SIZE < 2 ^ 13 ∧
    ((p * EEPROM_PAGE_SIZE) >>> 8) &&& 0x1F = (p * EEPROM_PAGE_SIZE) >>> 8 ∧
    (∃ a0 a1,
      writtenTo .ADDR0 (EEP_AtomicWritePage p) = [a0] ∧
      writtenTo .ADDR1 (EEP_AtomicWritePage p) = [a1] ∧
      a1 * 256 + a0 = p * 32 ∧
      a0 % 32 = 0 ∧
      a1 ≤ 31) ∧
    (writtenTo .ADDR0 (EEP_AtomicWritePage p) = writtenTo .ADDR0 (EEP_AtomicWritePage q) →
      writtenTo .ADDR1 (EEP_AtomicWritePage p) = writtenTo .ADDR1 (EEP_AtomicWritePage q) →
      p = q) := by
  have hw0 : ∀ r, r < 256 → writtenTo .ADDR0 (EEP_AtomicWritePage r) = [(r * 32) % 256] := by
    intro r hr
    rw [EEP_AtomicWritePage_eq r hr]
    simp [writtenTo]
  have hw1 : ∀ r, r < 256 → writtenTo .ADDR1 (EEP_AtomicWritePage r) = [(r * 32) / 256 % 32] := by
    intro r hr
    rw [EEP_AtomicWritePage_eq r hr]
    simp [writtenTo]
  refine ⟨?_, ?_, ?_, ?_, ?_, ?_⟩
  · unfold EEPROM_PAGE_SIZE; omega
  · unfold EEPROM_PAGE_SIZE; omega
  · unfold EEPROM_PAGE_SIZE; omega
  · rw [and_1F, shr_8]
    unfold EEPROM_PAGE_SIZE
    omega
  · exact ⟨_, _, hw0 p hp, hw1 p hp, by omega, by omega, by omega⟩
  · intro h0 h1
    rw [hw0 p hp, hw0 q hq] at h0
    rw [hw1 p hp, hw1 q hq] at h1
    simp only [List.cons.injEq, and_true] at h0 h1
    omega

/-- Witness for C9: the last page index, 255, and page index 8. -/
theorem EEP_AtomicWritePage_split_exact_witness :
    (255 < 256 ∧ 8 < 256) ∧
    255 * EEPROM_PAGE_SIZE ≤ 8160 ∧
    ∃ a0 a1,
      writtenTo .ADDR0 (EEP_AtomicWritePage 255) = [a0] ∧
      writtenTo .ADDR1 (EEP_AtomicWritePage 255) = [a1] ∧
      a1 * 256 + a0 = 255 * 32 ∧
      a0 % 32 = 0 ∧
      a1 ≤ 31 := by
  obtain ⟨h1, _, _, _, h5, _⟩ := EEP_AtomicWritePage_split_exact 255 8 (by decide) (by decide)
  exact ⟨⟨by decide, by decide⟩, h1, h5⟩

/-! ## Claims about the order of waits and writes -/

/-- C4: for every finite sequence of calls of `EEP_LoadPageBuffer`,
`EEP_AtomicWritePage` and `EEP_EraseAll` (each load handing over a buffer that
holds the bytes it asks for) and every initial controller state, the first
hardware action of each call is the wait for the busy flag, and every action
that is not a wait, that is every write to CMD, ADDR0, ADDR1, ADDR2 or DATA0
and every execute trigger, happens in a state where the busy flag is clear. -/
theorem writes_only_when_ready (cs : List Call) (hcs : ∀ c ∈ cs, c.inBounds) (s : NVM_t) :
    (∀ c ∈ cs, ∃ t, c.trace = some (Action.wait :: t)) ∧
    ∃ tr, callsTrace cs = some tr ∧
      ∀ pre a post, tr = pre ++ a :: post → a ≠ Action.wait →
        (run s pre).isBusy = false := by
  refine ⟨?_, ?_⟩
  · intro c hc
    obtain ⟨t, ht, _⟩ := call_guarded c (hcs c hc)
    exact ⟨t, ht⟩
  · obtain ⟨tr, htr, hg⟩ := callsTrace_guarded cs hcs
    refine ⟨tr, htr, ?_⟩
    intro pre a post h ha
    have := guarded_sound tr false s hg (fun hb => by simp at hb) pre a post h ha
    have hnb : ¬ (run s pre).isBusy = true := by
      rw [isBusy_iff]; simpa using this
    simpa using hnb

/-- C7: the trace of `EEP_AtomicWritePage` ends with the execute trigger
followed by a wait, its only execute trigger, so the call returns with the busy
flag clear; the trace of `EEP_EraseAll` ends with the execute trigger itself,
and the call returns with the busy flag set. -/
theorem completion_wait_asymmetry (page_addr : Nat) (s : NVM_t) :
    (∃ pre, EEP_AtomicWritePage page_addr = pre ++ [Action.exec, Action.wait] ∧
      Action.exec ∉ pre) ∧
    (EEP_AtomicWritePage page_addr).getLast? = some Action.wait ∧
    (run s (EEP_AtomicWritePage page_addr)).isBusy = false ∧
    ∃ t, EEP_EraseAll = some t ∧
      t.getLast? = some Action.exec ∧
      (∃ pre, t = pre ++ [Action.exec] ∧ Action.exec ∉ pre) ∧
      (run s t).isBusy = true := by
  refine ⟨⟨(EEP_AtomicWritePage page_addr).take 5, by simp [EEP_AtomicWritePage],
    by simp [EEP_AtomicWritePage]⟩, by simp [EEP_AtomicWritePage], ?_, ?_⟩
  · have hnb : ¬ (run s (EEP_AtomicWritePage page_addr)).isBusy = true := by
      rw [isBusy_iff]
      simp [EEP_AtomicWritePage, run, step, EEP_WaitForNVM_eq]
    simpa using hnb
  · have he : EEP_EraseAll =
        some ((Action.wait :: Action.write .CMD NVM_CMD_LOAD_EEPROM_BUFFER_gc ::
          Action.write .ADDR1 0 :: Action.write .ADDR2 0 :: pairsFrom 0 (blank.take (min 32 32))) ++
          [Action.wait, Action.write .CMD NVM_CMD_ERASE_EEPROM_gc, Action.exec]) := by
      unfold EEP_EraseAll
      rw [EEP_LoadPageBuffer_eq blank 32 (by decide)]
    refine ⟨_, he, by decide,
      ⟨(Action.wait :: Action.write .CMD NVM_CMD_LOAD_EEPROM_BUFFER_gc ::
          Action.write .ADDR1 0 :: Action.write .ADDR2 0 :: pairsFrom 0 (blank.take (min 32 32))) ++
          [Action.wait, Action.write .CMD NVM_CMD_ERASE_EEPROM_gc], by simp, by decide⟩, ?_⟩
    rw [isBusy_iff, run_append]
    simp [run, step, NVM_t.writeReg, NVM_EXEC, EEP_WaitForNVM_eq,
      NVM_CMD_ERASE_EEPROM_gc, NVM_CMD_ERASE_WRITE_EEPROM_PAGE_gc]

/-- Witness for C4: a load, a page write, an erase and a second page write, on a
controller that starts busy. -/
theorem writes_only_when_ready_witness :
    (∀ c ∈ [Call.loadPageBuffer [1, 2] 2, Call.atomicWritePage 3, Call.eraseAll,
        Call.atomicWritePage 0], c.inBounds) ∧
    ∃ tr, callsTrace [Call.loadPageBuffer [1, 2] 2, Call.atomicWritePage 3, Call.eraseAll,
        Call.atomicWritePage 0] = some tr ∧
      ∀ pre a post, tr = pre ++ a :: post → a ≠ Action.wait →
        (run { NVM_t.reset with busy := 5 } pre).isBusy = false :=
  have hin : ∀ c ∈ [Call.loadPageBuffer [1, 2] 2, Call.atomicWritePage 3, Call.eraseAll,
      Call.atomicWritePage 0], c.inBounds := by
    intro c hc
    simp only [List.mem_cons, List.mem_singleton, List.not_mem_nil, or_false] at hc
    rcases hc with rfl | rfl | rfl | rfl <;> simp [Call.inBounds]
  ⟨hin, (writes_only_when_ready _ hin { NVM_t.reset with busy := 5 }).2⟩

/-! ## Claims about a load followed by a page write -/

/-- C6: for size <= 32 and an 8-bit page index p, `EEP_LoadPageBuffer` followed
by `EEP_AtomicWritePage` writes DATA0 with data[0], ..., data[size-1] at the
offsets 0, ..., size-1, and ends with the address registers holding p * 32:
ADDR0 its low byte, ADDR1 its high bits and ADDR2 = 0. -/
theorem load_then_write (data : List Nat) (size p : Nat) (s : NVM_t)
    (hsize : size ≤ 32) (hp : p < 256) (hdata : size ≤ data.length) :
    ∃ t, EEP_LoadPageBuffer data size = some t ∧
      writtenTo .DATA0 (t ++ EEP_AtomicWritePage p) = data.take size ∧
      loads s.ADDR0 (t ++ EEP_AtomicWritePage p) = (List.range size).zip (data.take size) ∧
      (run s (t ++ EEP_AtomicWritePage p)).ADDR0 = (p * 32) % 256 ∧
      (run s (t ++ EEP_AtomicWritePage p)).ADDR1 = (p * 32) / 256 ∧
      (run s (t ++ EEP_AtomicWritePage p)).ADDR2 = 0 ∧
      (run s (t ++ EEP_AtomicWritePage p)).ADDR2 * 65536 +
        (run s (t ++ EEP_AtomicWritePage p)).ADDR1 * 256 +
        (run s (t ++ EEP_AtomicWritePage p)).ADDR0 = p * 32 := by
  have hmin : min size 32 = size := by omega
  have hload := EEP_LoadPageBuffer_loadTrace data size (by omega)
  rw [hmin] at hload
  have hlen : (data.take size).length = size := by
    rw [List.length_take]; omega
  have hnd : writtenTo .DATA0 (EEP_AtomicWritePage p) = [] := by
    simp [EEP_AtomicWritePage, writtenTo]
  refine ⟨_, hload, ?_, ?_, ?_, ?_, ?_, ?_⟩
  · rw [writtenTo_append, hnd]
    simp [loadTrace, writtenTo, writtenTo_DATA0_pairsFrom]
  · rw [loads_append _ _ hnd, loads_loadTrace, hlen]
  · rw [run_append, run_AtomicWritePage p hp]
  · rw [run_append, run_AtomicWritePage p hp]
  · rw [run_append, run_AtomicWritePage p hp]
  · rw [run_append, run_AtomicWritePage p hp]
    show 0 * 65536 + p * 32 / 256 * 256 + p * 32 % 256 = p * 32
    omega

/-- Witness for C6, the scenario of the specification: loading [0xAB, 0xCD]
with size 2 and then writing page 3 gives the data register sequence 0xAB at
offset 0 and 0xCD at offset 1, and the address registers 0x60, 0x00, 0x00,
that is address 96. -/
theorem load_then_write_witness :
    (2 ≤ 32 ∧ 3 < 256 ∧ 2 ≤ [0xAB, 0xCD].length) ∧
    ∃ t, EEP_LoadPageBuffer [0xAB, 0xCD] 2 = some t ∧
      writtenTo .DATA0 (t ++ EEP_AtomicWritePage 3) = [0xAB, 0xCD] ∧
      loads 0 (t ++ EEP_AtomicWritePage 3) = [(0, 0xAB), (1, 0xCD)] ∧
      (run NVM_t.reset (t ++ EEP_AtomicWritePage 3)).ADDR0 = 0x60 ∧
      (run NVM_t.reset (t ++ EEP_AtomicWritePage 3)).ADDR1 = 0x00 ∧
      (run NVM_t.reset (t ++ EEP_AtomicWritePage 3)).ADDR2 = 0x00 ∧
      (run NVM_t.reset (t ++ EEP_AtomicWritePage 3)).ADDR2 * 65536 +
        (run NVM_t.reset (t ++ EEP_AtomicWritePage 3)).ADDR1 * 256 +
        (run NVM_t.reset (t ++ EEP_AtomicWritePage 3)).ADDR0 = 96 :=
  ⟨by decide,
    load_then_write [0xAB, 0xCD] 2 3 NVM_t.reset (by decide) (by decide) (by decide)⟩

/-- With the page buffer empty beforehand, a load followed by a page write
stores byte `j` of the input at address `p * 32 + j`. -/
theorem commit_loaded_bytes (data : List Nat) (size p j b : Nat) (s : NVM_t)
    (hp : p < 256) (hdata : min size 32 ≤ data.length)
    (hj : j < min size 32) (hb : data[j]? = some b) :
    ∃ t, EEP_LoadPageBuffer data size = some t ∧
      (run s (t ++ EEP_AtomicWritePage p)).eeprom (p * 32 + j) = b % 256 := by
  refine ⟨_, EEP_LoadPageBuffer_loadTrace data size hdata, ?_⟩
  have hlen : (data.take (min size 32)).length ≤ 32 := by
    rw [List.length_take]; omega
  obtain ⟨_, _, h3⟩ := run_loadTrace (data.take (min size 32)) hlen s
  have hget : (data.take (min size 32))[j]? = some b := by
    rw [List.getElem?_take_of_lt hj]; exact hb
  rw [run_append, run_AtomicWritePage p hp]
  have h1 : (p * 32 + j) / 32 = p := by omega
  have h2 : (p * 32 + j) % 32 = j := by omega
  simp only [h1, h2, if_true, h3 j b hget]

/-- C5: sparse-write fidelity.  With the page buffer empty beforehand, for
every size (below 32 there is such an offset), every 8-bit page index p and
every offset k with min(size, 32) <= k < 32, `EEP_LoadPageBuffer` followed by
`EEP_AtomicWritePage` never writes DATA0 at offset k and leaves the EEPROM byte
at address p * 32 + k as it was before the two calls. -/
theorem sparse_write_fidelity (data : List Nat) (size p k : Nat) (s : NVM_t)
    (hp : p < 256) (hdata : min size 32 ≤ data.length)
    (hempty : ∀ j, s.buffer j = none) (hk1 : min size 32 ≤ k) (hk2 : k < 32) :
    ∃ t, EEP_LoadPageBuffer data size = some t ∧
      (∀ x ∈ loads s.ADDR0 (t ++ EEP_AtomicWritePage p), x.1 ≠ k) ∧
      (run s (t ++ EEP_AtomicWritePage p)).eeprom (p * 32 + k) = s.eeprom (p * 32 + k) := by
  refine ⟨_, EEP_LoadPageBuffer_loadTrace data size hdata, ?_, ?_⟩
  · have hnd : writtenTo .DATA0 (EEP_AtomicWritePage p) = [] := by
      simp [EEP_AtomicWritePage, writtenTo]
    rw [loads_append _ _ hnd, loads_loadTrace]
    intro x hx
    obtain ⟨a, b⟩ := x
    have ha := (List.of_mem_zip hx).1
    rw [List.mem_range, List.length_take] at ha
    show a ≠ k
    omega
  · have hlen : (data.take (min size 32)).length = min size 32 := by
      rw [List.length_take]; omega
    obtain ⟨h1, h2, _⟩ := run_loadTrace (data.take (min size 32)) (by omega) s
    rw [run_append, run_AtomicWritePage p hp]
    have hd : (p * 32 + k) / 32 = p := by omega
    have hm : (p * 32 + k) % 32 = k := by omega
    simp only [hd, hm, if_true, h1, h2 k (by omega) hk2, hempty k]

/-- Witness for C5: two bytes are loaded and page 3 is written on a controller
whose memory holds 0xFF everywhere; the byte at offset 5 of the page stays. -/
theorem sparse_write_fidelity_witness :
    (3 < 256 ∧ min 2 32 ≤ [0xAB, 0xCD].length ∧
      (∀ j, NVM_t.reset.buffer j = none) ∧ min 2 32 ≤ 5 ∧ 5 < 32) ∧
    ∃ t, EEP_LoadPageBuffer [0xAB, 0xCD] 2 = some t ∧
      (run NVM_t.reset (t ++ EEP_AtomicWritePage 3)).eeprom (3 * 32 + 5) = 0xFF := by
  refine ⟨⟨by decide, by decide, fun _ => rfl, by decide, by decide⟩, ?_⟩
  obtain ⟨t, h1, _, h3⟩ := sparse_write_fidelity [0xAB, 0xCD] 2 3 5 NVM_t.reset
    (by decide) (by decide) (fun _ => rfl) (by decide) (by decide)
  exact ⟨t, h1, h3⟩

end EEP
